import Mathlib

/-!
# A shallow embedding of the `inharmonicity` piano-tuner core

Definitions translate the Rust sources of the repository
(`tuner-core/src/{tuning,inharmonicity,capture_processing,pitch,fft}.rs`
and `tuner-gui/src/main.rs`).  `f32`/`f64` arithmetic is modelled exactly,
over an arbitrary `LinearOrderedField` where only field operations occur
(so the definitions are executable at `ℚ`), and over `ℝ` where the source
uses transcendental functions (`ln`, `log2`, `cos`, `powf`).  Fallible code
(Rust panics) returns `Except Unit`; `eprintln!` diagnostics are modelled
as abstract log events.
-/

namespace Tuner

/-! ## tuning.rs -/

/-- `NOTE_NAMES` of `tuning.rs`: the 12 pitch classes starting at A. -/
def NOTE_NAMES : List String :=
  ["A", "A#", "B", "C", "C#", "D", "D#", "E", "F", "F#", "G", "G#"]

/-- The name of the `i`-th piano key as `NOTES` builds it:
pitch class `i % 12`, octave `(i + 9) / 12` appended in decimal. -/
def noteName (i : ℕ) : String :=
  NOTE_NAMES.getD (i % 12) "" ++ toString ((i + 9) / 12)

/-- The frequency of the `i`-th piano key as `NOTES` computes it:
`440.0 * 2.0f32.powf((i - 48.0) / 12.0)`, modelled exactly with `Real.rpow`. -/
noncomputable def noteFrequency (i : ℕ) : ℝ :=
  440 * (2 : ℝ) ^ (((i : ℝ) - 48) / 12)

/-- `get_key_index_from_name` of `tuning.rs`: `NOTE_MAP` maps each of the 88
note names to its key index (the names are pairwise distinct, so the
`BTreeMap` built from the enumeration finds the unique index); a name not in
the map defaults to 0. -/
def getKeyIndexFromName (name : String) : ℕ :=
  ((List.range 88).find? (fun i => noteName i == name)).getD 0

/-! ## lib.rs: `AnalysisResult` -/

/-- `AnalysisResult` of `tuner-core/src/lib.rs`. -/
structure AnalysisResult (K : Type) where
  detectedFrequency : Option K
  confidence : Option K
  centsDeviation : Option K
  noteName : Option String
  spectrogramData : List K
  partials : List K
deriving DecidableEq

/-! ## inharmonicity.rs -/

/-- `Partial` of `inharmonicity.rs`: `number : u32`, `frequency : f32`. -/
structure Partial (K : Type) where
  number : ℕ
  frequency : K
deriving DecidableEq

/-- `KeyMeasurement` of `inharmonicity.rs`. -/
structure KeyMeasurement (K : Type) where
  keyIndex : ℕ
  partials : List (Partial K)
  calculatedB : Option K
deriving DecidableEq

/-- Modelled from the `linreg` crate's `linear_regression` (an external
dependency of `inharmonicity.rs`): ordinary least squares over the sums
`n`, `Σx`, `Σy`, `Σx²`, `Σxy`.  It fails (returns `none`) on mismatched or
empty inputs, and when all the x-values are equal: then both the slope's
numerator and denominator are 0, the `f64` slope is `0.0/0.0 = NaN`, and the
crate reports `Error::TooSteep`. -/
def linearRegression {K : Type} [LinearOrderedField K] (xs ys : List K) :
    Option (K × K) :=
  if xs.length ≠ ys.length then none
  else if xs.length = 0 then none
  else
    let n : K := xs.length
    let xSum := xs.sum
    let ySum := ys.sum
    let xSqSum := (xs.map (fun x => x * x)).sum
    let xySum := (List.zipWith (· * ·) xs ys).sum
    let den := n * xSqSum - xSum * xSum
    if den = 0 then none
    else
      let slope := (n * xySum - xSum * ySum) / den
      some (slope, (ySum - slope * xSum) / n)

/-- The filter of `calculate_b_value`: `p.number > 0 && p.frequency > 0.0`. -/
def validPartial {K : Type} [LinearOrderedField K] (p : Partial K) : Bool :=
  decide (0 < p.number) && decide ((0 : K) < p.frequency)

/-- The regression x-coordinates of `calculate_b_value`: `x = n * n`. -/
def regressionXs {K : Type} [LinearOrderedField K] (m : KeyMeasurement K) :
    List K :=
  (m.partials.filter validPartial).map (fun p => (p.number : K) * p.number)

/-- The regression y-coordinates of `calculate_b_value`:
`y = (f_n / n) * (f_n / n)`. -/
def regressionYs {K : Type} [LinearOrderedField K] (m : KeyMeasurement K) :
    List K :=
  (m.partials.filter validPartial).map
    (fun p => (p.frequency / p.number) * (p.frequency / p.number))

/-- `KeyMeasurement::calculate_b_value` of `inharmonicity.rs`.  The mutation
of `self` is modelled by returning the pair (returned value, updated
measurement).  `1e-6` is written `1 / 1000000`. -/
def calculateBValue {K : Type} [LinearOrderedField K] (m : KeyMeasurement K) :
    Option K × KeyMeasurement K :=
  if m.partials.length < 3 then (none, m)
  else
    match linearRegression (regressionXs m) (regressionYs m) with
    | some si =>
        if 1 / 1000000 < |si.2| then
          (some (si.1 / si.2), { m with calculatedB := some (si.1 / si.2) })
        else (none, m)
    | none => (none, m)

/-! ## capture_processing.rs -/

/-- `ProcessingOperation` of `capture_processing.rs`. -/
inductive ProcessingOperation
  | bestConfidence
  | average
deriving DecidableEq

/-- The `eprintln!` diagnostics of `capture_processing.rs`, as abstract
events:
* `notSupported` — "[CAPTURE] Average processing not yet implemented"
* `processed n`  — "[CAPTURE] Processed measurement for {n}: B={..}"
* `noStableNote` — "[CAPTURE] Process failed: Best frame had no stable note data."
* `noBestFrame`  — "[CAPTURE] Process failed: No best frame found in buffer." -/
inductive CaptureLog
  | notSupported
  | processed (note : String)
  | noStableNote
  | noBestFrame
deriving DecidableEq

/-- `a.confidence.unwrap_or(0.0)` as used by the comparator in
`process_best_confidence`. -/
def confOrZero {K : Type} [LinearOrderedField K] (a : AnalysisResult K) : K :=
  a.confidence.getD 0

/-- One step of `Iterator::max_by` with the comparator
`conf_a.partial_cmp(&conf_b).unwrap_or(Less)`: the accumulator is kept only
when it compares strictly greater. -/
def maxByStep {K : Type} [LinearOrderedField K]
    (acc b : AnalysisResult K) : AnalysisResult K :=
  if confOrZero b < confOrZero acc then acc else b

/-- The `buffer.iter().max_by(..)` of `process_best_confidence`.  Rust's
`Iterator::max_by` folds `maxByStep`, so of several equally-maximal
elements the **last** is returned. -/
def maxByConfidence {K : Type} [LinearOrderedField K]
    (buffer : List (AnalysisResult K)) : Option (AnalysisResult K) :=
  match buffer with
  | [] => none
  | x :: xs => some (xs.foldl maxByStep x)

/-- `process_best_confidence` of `capture_processing.rs`, with its
`eprintln!` output as the second component. -/
def processBestConfidence {K : Type} [LinearOrderedField K]
    (buffer : List (AnalysisResult K)) :
    Option (KeyMeasurement K) × List CaptureLog :=
  match maxByConfidence buffer with
  | some bestFrame =>
      match bestFrame.noteName, bestFrame.detectedFrequency with
      | some name, some freq =>
          let keyIndex := getKeyIndexFromName name
          -- fundamental partial n = 1, then overtones n = i + 2
          let allPartials := Partial.mk 1 freq ::
            bestFrame.partials.enum.map (fun iq => Partial.mk (iq.1 + 2) iq.2)
          let m := (calculateBValue (KeyMeasurement.mk keyIndex allPartials none)).2
          (some m, [CaptureLog.processed name])
      | _, _ => (none, [CaptureLog.noStableNote])
  | none => (none, [CaptureLog.noBestFrame])

/-- `process` of `capture_processing.rs`. -/
def process {K : Type} [LinearOrderedField K]
    (buffer : List (AnalysisResult K)) (operation : ProcessingOperation) :
    Option (KeyMeasurement K) × List CaptureLog :=
  match operation with
  | .bestConfidence => processBestConfidence buffer
  | .average => (none, [CaptureLog.notSupported])

/-! ## pitch.rs -/

/-- `parabolic_interpolation_offset` of `pitch.rs`. -/
def parabolicInterpolationOffset {K : Type} [LinearOrderedField K]
    (yLeft yCenter yRight : K) : Option K :=
  let denominator := yLeft - 2 * yCenter + yRight
  if |denominator| < 1 / 1000000 then none
  else some ((yLeft - yRight) / (2 * denominator))

/-- `signal.iter().map(|s| s * s).sum()`. -/
def sumSquares {K : Type} [LinearOrderedField K] (signal : List K) : K :=
  (signal.map (fun s => s * s)).sum

/-- The noise gate `rms < amplitude_threshold` of `detect_pitch_yin` /
`detect_pitch_pyin`, where `rms = sqrt(sumSquares / frame_size)`.  To stay
inside field operations the square root is eliminated: for a nonempty frame
`sqrt q < t ↔ 0 < t ∧ q < t * t` (both sides nonnegative); for an empty
frame the Rust rms is `sqrt(0.0/0.0) = NaN` and `NaN < t` is false, hence
the `0 < length` conjunct. -/
def noiseGateFires {K : Type} [LinearOrderedField K]
    (signal : List K) (amplitudeThreshold : K) : Prop :=
  0 < signal.length ∧ 0 < amplitudeThreshold ∧
    sumSquares signal / signal.length < amplitudeThreshold * amplitudeThreshold

instance {K : Type} [LinearOrderedField K] (signal : List K) (t : K) :
    Decidable (noiseGateFires signal t) := by
  unfold noiseGateFires; infer_instance

/-- Step 1-2 of `yin_difference`: the raw squared difference at lag `tau`,
`Σ_{i < frame_size/2} (signal[i] - signal[i+tau])²`.  All indices accessed
by the source are in bounds, so `getD _ 0` agrees with Rust indexing. -/
def yinDiff {K : Type} [LinearOrderedField K]
    (signal : List K) (frameSize tau : ℕ) : K :=
  ∑ i ∈ Finset.range (frameSize / 2),
    (signal.getD i 0 - signal.getD (i + tau) 0) *
      (signal.getD i 0 - signal.getD (i + tau) 0)

/-- The `running_sum` of step 3 of `yin_difference` after processing lag
`tau`: the raw differences are accumulated before normalisation. -/
def yinRunningSum {K : Type} [LinearOrderedField K]
    (signal : List K) (frameSize tau : ℕ) : K :=
  ∑ t ∈ Finset.range tau, yinDiff signal frameSize (t + 1)

/-- The cumulative mean normalized difference buffer `yin_buffer[tau]` after
`yin_difference` ran: entry 0 is set to 1.0, and entry `tau ≥ 1` is
`diff * (tau / running_sum)` when `running_sum > 1e-6`, else 1.0. -/
def yinBuffer {K : Type} [LinearOrderedField K]
    (signal : List K) (frameSize tau : ℕ) : K :=
  if tau = 0 then 1
  else if 1 / 1000000 < yinRunningSum signal frameSize tau then
    yinDiff signal frameSize tau * ((tau : K) / yinRunningSum signal frameSize tau)
  else 1

/-- Steps 4-5 of `detect_pitch_yin`: the first `tau` in `2..frame_size/2`
with `yin_buffer[tau] < 0.10` and `yin_buffer[tau] < yin_buffer[tau-1]`;
`none` models `period == 0`. -/
def yinFindPeriod {K : Type} [LinearOrderedField K]
    (signal : List K) (frameSize : ℕ) : Option ℕ :=
  (List.range' 2 (frameSize / 2 - 2)).find? (fun tau =>
    decide (yinBuffer signal frameSize tau < 1 / 10) &&
    decide (yinBuffer signal frameSize tau < yinBuffer signal frameSize (tau - 1)))

/-- `detect_pitch_yin` of `pitch.rs`.  `Except.error ()` models the
out-of-bounds panic: when `frame_size / 2 = 0` the buffer `yin_buffer` is
empty and step 3 of `yin_difference` writes `yin_buffer[0]`.  The final
test models `frequency.is_finite() && frequency > 20.0`: the only
non-finite case, `period_float = 0`, makes the modelled division yield 0,
which fails `20 < frequency` just as `is_finite` fails in Rust. -/
def detectPitchYin {K : Type} [LinearOrderedField K]
    (signal : List K) (sampleRate : ℕ) (amplitudeThreshold : K) :
    Except Unit (Option K) :=
  let frameSize := signal.length
  if noiseGateFires signal amplitudeThreshold then .ok none
  else if frameSize / 2 = 0 then .error ()
  else
    match yinFindPeriod signal frameSize with
    | none => .ok none
    | some period =>
        if frameSize / 2 ≤ period + 1 then .ok none
        else
          let y1 := yinBuffer signal frameSize (period - 1)
          let y2 := yinBuffer signal frameSize period
          let y3 := yinBuffer signal frameSize (period + 1)
          let offset := (parabolicInterpolationOffset y1 y2 y3).getD 0
          let periodFloat := (period : K) + offset
          let frequency := (sampleRate : K) / periodFloat
          .ok (if 20 < frequency then some frequency else none)

/-- One iteration of the pYIN candidate search: keep `tau` when it is a
strict local minimum improving on the best so far.  The initial
`(best_period, lowest_yin_val) = (0, f32::INFINITY)` pair is modelled by
`none`: any value compares below infinity. -/
def pyinStep {K : Type} [LinearOrderedField K]
    (buf : ℕ → K) (st : Option (ℕ × K)) (tau : ℕ) : Option (ℕ × K) :=
  if buf tau < buf (tau - 1) ∧ buf tau < buf (tau + 1) then
    match st with
    | none => some (tau, buf tau)
    | some best => if buf tau < best.2 then some (tau, buf tau) else st
  else st

/-- `detect_pitch_pyin` of `pitch.rs`.  The candidate search runs over
`tau` in `2..(frame_size/2 - 1)`; `best_period == 0` is modelled by the
fold returning `none`.  The final `is_finite` test is dropped: after the
`period_float <= 0.0` early return the frequency is finite. -/
def detectPitchPyin {K : Type} [LinearOrderedField K]
    (signal : List K) (sampleRate : ℕ) (amplitudeThreshold : K) :
    Option (K × K) :=
  let frameSize := signal.length
  if frameSize < 4 then none
  else if noiseGateFires signal amplitudeThreshold then none
  else
    let buf := yinBuffer signal frameSize
    match (List.range' 2 (frameSize / 2 - 1 - 2)).foldl (pyinStep buf) none with
    | none => none
    | some best =>
        if 1 / 10 < best.2 then none
        else
          let y1 := buf (best.1 - 1)
          let y2 := buf best.1
          let y3 := buf (best.1 + 1)
          let offset := (parabolicInterpolationOffset y1 y2 y3).getD 0
          let periodFloat := (best.1 : K) + offset
          if periodFloat ≤ 0 then none
          else
            let frequency := (sampleRate : K) / periodFloat
            if 20 < frequency then some (frequency, 1 - best.2) else none

/-! ## fft.rs -/

/-- `BUFFER_SIZE` of `audio.rs`. -/
def BUFFER_SIZE : ℕ := 2048

/-- `remove_dc_offset` of `fft.rs`. -/
noncomputable def removeDcOffset (signal : List ℝ) : List ℝ :=
  if signal.length = 0 then signal
  else
    let avg := signal.sum / signal.length
    if 1 / 1000000 < |avg| then signal.map (fun s => s - avg) else signal

/-- `apply_hann_window` of `fft.rs`. -/
noncomputable def applyHannWindow (buffer : List ℝ) : List ℝ :=
  if buffer.length = 0 then buffer
  else
    let nMinus1 : ℝ := (buffer.length - 1 : ℕ)
    buffer.enum.map (fun is =>
      is.2 * (1 / 2 * (1 - Real.cos (2 * Real.pi * is.1 / nMinus1))))

/-- The forward FFT computed by the `rustfft` dependency (an unnormalised
discrete Fourier transform): `X_k = Σ_j x_j · exp(-2πi·j·k/N)`. -/
noncomputable def dft (x : List ℂ) : List ℂ :=
  (List.range x.length).map (fun k =>
    (x.enum.map (fun jc =>
      jc.2 * Complex.exp (-2 * Real.pi * Complex.I * jc.1 * k / x.length))).sum)

/-- `perform_fft` of `fft.rs`; `Except.error ()` models the explicit panic
on a frame whose length is not `BUFFER_SIZE`. -/
noncomputable def performFft (signal : List ℝ) : Except Unit (List ℂ) :=
  if signal.length ≠ BUFFER_SIZE then .error ()
  else .ok (dft ((applyHannWindow (removeDcOffset signal)).map (fun s => (s : ℂ))))

/-- `spectrum_to_magnitudes` of `fft.rs`. -/
noncomputable def spectrumToMagnitudes (spectrum : List ℂ) : List ℝ :=
  (spectrum.take (BUFFER_SIZE / 2)).map Complex.abs

/-! ## pitch.rs: spectrum refinement (over `ℝ`, the source takes `ln`) -/

/-- The `enumerate().max_by(..)` over a magnitude window used by
`refine_from_spectrum` and `find_partials`: the (index, value) pair of the
**last** maximal element (`Iterator::max_by` keeps the later of equals). -/
def lastMaxIdx {K : Type} [LinearOrderedField K] (l : List K) : Option (ℕ × K) :=
  match l.enum with
  | [] => none
  | x :: xs => some (xs.foldl (fun acc b => if b.2 < acc.2 then acc else b) x)

/-- `interpolate_peak_frequency` of `pitch.rs`.  The `is_finite` guard on
the three logs holds exactly when the three magnitudes are positive
(`ln 0 = -inf`, `ln` of a negative is NaN in `f32`); the final
`is_finite` guard on `final_freq` always holds here (all inputs finite,
`buffer_size > 0`) and is dropped. -/
noncomputable def interpolatePeakFrequency (spectrumMagnitudes : List ℝ)
    (peakBin : ℕ) (sampleRate : ℕ) : Option ℝ :=
  if peakBin = 0 ∨ spectrumMagnitudes.length - 1 ≤ peakBin then none
  else
    let m1 := spectrumMagnitudes.getD (peakBin - 1) 0
    let m2 := spectrumMagnitudes.getD peakBin 0
    let m3 := spectrumMagnitudes.getD (peakBin + 1) 0
    if 0 < m1 ∧ 0 < m2 ∧ 0 < m3 then
      match parabolicInterpolationOffset
          (Real.log m1) (Real.log m2) (Real.log m3) with
      | some offset =>
          let interpolatedBin := (peakBin : ℝ) + offset
          let bufferSize : ℕ := spectrumMagnitudes.length * 2
          let finalFreq := interpolatedBin * sampleRate / bufferSize
          if 0 < finalFreq then some finalFreq else none
      | none => none
    else none

/-- `refine_from_spectrum` of `pitch.rs`.  `as usize` casts of the
(nonnegative) `f32` bin positions truncate, modelled by `Nat.floor`. -/
noncomputable def refineFromSpectrum (spectrumMagnitudes : List ℝ)
    (roughFreq : ℝ) (sampleRate : ℕ) : Option ℝ :=
  if roughFreq ≤ 0 then some roughFreq
  else
    let bufferSize : ℕ := spectrumMagnitudes.length * 2
    let targetBin := roughFreq * bufferSize / sampleRate
    let searchRadius : ℝ := 2
    let startBin := ⌊max (targetBin - searchRadius) 0⌋₊
    let endBin := ⌊min (targetBin + searchRadius)
      ((spectrumMagnitudes.length - 1 : ℕ) : ℝ)⌋₊
    if endBin ≤ startBin then some roughFreq
    else
      match lastMaxIdx ((spectrumMagnitudes.drop startBin).take
          (endBin + 1 - startBin)) with
      | none => some roughFreq
      | some om =>
          match interpolatePeakFrequency spectrumMagnitudes
              (startBin + om.1) sampleRate with
          | some f => some f
          | none => some roughFreq

/-- The body of the guided-search loop of `find_partials`, for harmonic
number `n`; the fuel counts the remaining iterations of
`for n in 2..=(max_partials + 1)`, and returning `[]` at the Nyquist test
models the `break`. -/
noncomputable def findPartialsAux (mags : List ℝ) (fundamentalFreq : ℝ)
    (sampleRate : ℕ) (peakThreshold : ℝ) : ℕ → ℕ → List ℝ
  | _, 0 => []
  | n, fuel + 1 =>
    let expectedFreq := fundamentalFreq * n
    if (sampleRate : ℝ) / 2 < expectedFreq then []
    else
      let bufferSize : ℕ := mags.length * 2
      let searchWidthHz := fundamentalFreq * (1 / 2)
      let targetBin := expectedFreq * bufferSize / sampleRate
      let binWidth := searchWidthHz * bufferSize / sampleRate
      let startBin := min ⌊max (targetBin - binWidth / 2) 0⌋₊ (mags.length - 1)
      let endBin := max ⌊min (targetBin + binWidth / 2)
        ((mags.length - 1 : ℕ) : ℝ)⌋₊ startBin
      let rest := findPartialsAux mags fundamentalFreq sampleRate peakThreshold
        (n + 1) fuel
      if endBin ≤ startBin then rest
      else
        match lastMaxIdx ((mags.drop startBin).take (endBin + 1 - startBin)) with
        | none => rest
        | some om =>
            if peakThreshold < om.2 then
              match interpolatePeakFrequency mags (startBin + om.1) sampleRate with
              | some refined => refined :: rest
              | none => rest
            else rest

/-- `find_partials` of `pitch.rs`.  `fundamental_bin.round()` is
round-half-away-from-zero, which on the nonnegative bin is
`⌊x + 1/2⌋` (for `sample_rate = 0` the Rust bin is infinite and the lookup
fails; that input never reaches this function). -/
noncomputable def findPartials (spectrumMagnitudes : List ℝ)
    (fundamentalFreq : ℝ) (sampleRate : ℕ) (maxPartialCount : ℕ) : List ℝ :=
  if fundamentalFreq ≤ 0 then []
  else
    let bufferSize : ℕ := spectrumMagnitudes.length * 2
    let fundamentalBin := fundamentalFreq * bufferSize / sampleRate
    let peakThreshold :=
      match spectrumMagnitudes.get? ⌊fundamentalBin + 1 / 2⌋₊ with
      | some mag => mag * (5 / 100)
      | none => 0
    if peakThreshold = 0 then []
    else findPartialsAux spectrumMagnitudes fundamentalFreq sampleRate
      peakThreshold 2 maxPartialCount

/-! ## tuning.rs: nearest-note search and cents (over `ℝ`) -/

/-- The `NOTES` table of `tuning.rs`: 88 (name, frequency) pairs. -/
noncomputable def NOTES : List (String × ℝ) :=
  (List.range 88).map (fun i => (noteName i, noteFrequency i))

/-- `find_nearest_note` of `tuning.rs`.  `Iterator::min_by` keeps the
**first** of equally-minimal elements; `NOTES` is never empty so the Rust
`unwrap` succeeds (the `([], 0)` arm is unreachable). -/
noncomputable def findNearestNote (freq : ℝ) : String × ℝ :=
  match NOTES with
  | [] => ("", 0)
  | x :: xs =>
      xs.foldl (fun acc b =>
        if |b.2 - freq| < |acc.2 - freq| then b else acc) x

/-- `find_nearest_note_by_index` of `tuning.rs`. -/
noncomputable def findNearestNoteByIndex (keyIndex : ℕ) : String × ℝ :=
  (noteName keyIndex, noteFrequency keyIndex)

/-- `calculate_cents_deviation` of `tuning.rs`: `1200 * log2(freq/target)`. -/
noncomputable def calculateCentsDeviation (freq targetFreq : ℝ) : ℝ :=
  1200 * Real.logb 2 (freq / targetFreq)

/-! ## main.rs: the analysis pipeline and the capture state machine -/

/-- `AMPLITUDE_THRESHOLD` of `main.rs`. -/
noncomputable def AMPLITUDE_THRESHOLD : ℝ := 1 / 100

/-- `STABILITY_TARGET` of `main.rs`. -/
def STABILITY_TARGET : ℕ := 20

/-- `STABILITY_CONFIDENCE_THRESHOLD` of `main.rs`. -/
noncomputable def STABILITY_CONFIDENCE_THRESHOLD : ℝ := 9 / 10

/-- `SMOOTHING_FACTOR` of `main.rs`. -/
def SMOOTHING_FACTOR : ℕ := 5

/-- `perform_analysis` of `main.rs`; `Except.error ()` propagates the
`perform_fft` panic on a frame of the wrong size (the audio thread catches
it with `catch_unwind`). -/
noncomputable def performAnalysis (audioFrame : List ℝ) (sampleRate : ℕ) :
    Except Unit (AnalysisResult ℝ) :=
  match performFft audioFrame with
  | .error e => .error e
  | .ok complexSpectrum =>
      let spectrogramData := spectrumToMagnitudes complexSpectrum
      let fc :=
        match detectPitchPyin audioFrame sampleRate AMPLITUDE_THRESHOLD with
        | some fqc =>
            (refineFromSpectrum spectrogramData fqc.1 sampleRate, some fqc.2)
        | none => (none, none)
      let cn :=
        match fc.1 with
        | some freq =>
            let nt := findNearestNote freq
            (some (calculateCentsDeviation freq nt.2), some nt.1)
        | none => (none, none)
      let outPartials :=
        match fc.1 with
        | some fundamental => findPartials spectrogramData fundamental sampleRate 7
        | none => []
      .ok (AnalysisResult.mk fc.1 fc.2 cn.1 cn.2 spectrogramData outPartials)

/-- `CaptureState` of `main.rs`. -/
inductive CaptureState
  | off
  | armed
  | capturing
  | done
deriving DecidableEq

/-- `TuningMode` of `main.rs`. -/
inductive TuningMode
  | auto
  | manual (keyIndex : ℕ) (modeNote : String) (targetFreq : ℝ)

/-- The application state of `main.rs` (`TunerApp` together with its
`AppDisplayData`), restricted to the fields the update logic touches.  The
`InharmonicityProfile` `BTreeMap` is modelled as a lookup function; the
ghost field `handedBatches` records each buffer handed to
`capture_processing::process` (the measurement selector). -/
structure AppState where
  stabilityBuffer : List (AnalysisResult ℝ)
  measurements : ℕ → Option (KeyMeasurement ℝ)
  smoothingBuffer : List ℝ
  lastAnalysis : Option (AnalysisResult ℝ)
  tuningMode : TuningMode
  captureState : CaptureState
  spectrogramVisible : Bool
  centMeterVisible : Bool
  keySelectVisible : Bool
  partialsVisible : Bool
  handedBatches : List (List (AnalysisResult ℝ))

/-- `check_stability` of `main.rs`: the buffer is nonempty, the first frame
names a note, and every frame has `confidence` above the threshold
(`map_or(false, |c| c > THRESHOLD)`, i.e. some value strictly above) and
the same note name as the first frame. -/
def checkStability (buffer : List (AnalysisResult ℝ)) : Prop :=
  match buffer with
  | [] => False
  | first :: _ =>
      match first.noteName with
      | none => False
      | some firstNote =>
          ∀ frame ∈ buffer,
            (∃ c, frame.confidence = some c ∧ STABILITY_CONFIDENCE_THRESHOLD < c) ∧
            frame.noteName = some firstNote

open scoped Classical in
/-- The stability-gated capture section of
`TunerApp::process_analysis_result` of `main.rs`: push_back, pop_front once
over capacity, and — once the FIFO is exactly at capacity and stable — the
transition to `Done`, draining the buffer into
`capture_processing::process` and inserting a returned measurement into
the profile.  The GUI call `initialize_done_timer` has no state. -/
noncomputable def capturePhase (s : AppState) (result : AnalysisResult ℝ) :
    AppState :=
  if s.captureState = CaptureState.capturing then
    let pushed := s.stabilityBuffer ++ [result]
    let buf := if STABILITY_TARGET < pushed.length then pushed.drop 1 else pushed
    if buf.length = STABILITY_TARGET then
      if checkStability buf then
        let pm := process buf ProcessingOperation.bestConfidence
        { s with
          captureState := CaptureState.done
          stabilityBuffer := []
          handedBatches := s.handedBatches ++ [buf]
          measurements :=
            match pm.1 with
            | some m => fun k => if k = m.keyIndex then some m else s.measurements k
            | none => s.measurements }
      else { s with stabilityBuffer := buf }
    else { s with stabilityBuffer := buf }
  else s

/-- `TunerApp::process_analysis_result` of `main.rs`: the capture section
above, then the smoothing-buffer logic, then storing the last analysis. -/
noncomputable def processAnalysisResult (s : AppState) (result : AnalysisResult ℝ) :
    AppState :=
  let s1 := capturePhase s result
  let centsForSmoothing :=
    match s1.tuningMode with
    | TuningMode.auto => result.centsDeviation
    | TuningMode.manual _ _ targetFreq =>
        result.detectedFrequency.map (fun freq => calculateCentsDeviation freq targetFreq)
  let s2 :=
    match centsForSmoothing with
    | some cents =>
        let sb := s1.smoothingBuffer ++ [cents]
        { s1 with smoothingBuffer := if SMOOTHING_FACTOR < sb.length then sb.drop 1 else sb }
    | none => { s1 with smoothingBuffer := [] }
  { s2 with lastAnalysis := some result }

/-- The messages of `TunerApp::update` that change the modelled state.
`loadProfile` carries what the file read produced (`none` = I/O or parse
error); `tick` carries the analysis results drained from the channel this
tick.  `Exit` terminates the process and `SaveProfile` and the settings
placeholders leave the state unchanged. -/
inductive AppMessage
  | keySelected (keyIndex : ℕ)
  | switchToAutoMode
  | toggleMeasurementMode
  | captureButtonClicked
  | saveProfile
  | loadProfile (loaded : Option (ℕ → Option (KeyMeasurement ℝ)))
  | toggleSpectrogram
  | toggleCentMeter
  | toggleKeySelect
  | togglePartialsPane
  | tick (results : List (AnalysisResult ℝ))

/-- `TunerApp::update` of `main.rs` on the modelled state. -/
noncomputable def applyMessage (s : AppState) (msg : AppMessage) : AppState :=
  match msg with
  | .keySelected keyIndex =>
      match s.tuningMode with
      | TuningMode.manual currentKey _ _ =>
          if currentKey = keyIndex then
            { s with tuningMode := TuningMode.auto, smoothingBuffer := [] }
          else
            let nt := findNearestNoteByIndex keyIndex
            { s with tuningMode := TuningMode.manual keyIndex nt.1 nt.2
                     smoothingBuffer := [] }
      | TuningMode.auto =>
          let nt := findNearestNoteByIndex keyIndex
          { s with tuningMode := TuningMode.manual keyIndex nt.1 nt.2
                   smoothingBuffer := [] }
  | .switchToAutoMode =>
      { s with tuningMode := TuningMode.auto, smoothingBuffer := [] }
  | .toggleMeasurementMode =>
      match s.captureState with
      | CaptureState.off => { s with captureState := CaptureState.armed }
      | CaptureState.armed =>
          { s with stabilityBuffer := [], captureState := CaptureState.off }
      | CaptureState.capturing =>
          { s with stabilityBuffer := [], captureState := CaptureState.off }
      | CaptureState.done => { s with captureState := CaptureState.off }
  | .captureButtonClicked =>
      match s.captureState with
      | CaptureState.armed => { s with captureState := CaptureState.capturing }
      | CaptureState.capturing => { s with captureState := CaptureState.armed }
      | CaptureState.done => { s with captureState := CaptureState.off }
      | CaptureState.off => s
  | .saveProfile => s
  | .loadProfile loaded =>
      match loaded with
      | some p => { s with measurements := p }
      | none => s
  | .toggleSpectrogram => { s with spectrogramVisible := !s.spectrogramVisible }
  | .toggleCentMeter => { s with centMeterVisible := !s.centMeterVisible }
  | .toggleKeySelect => { s with keySelectVisible := !s.keySelectVisible }
  | .togglePartialsPane => { s with partialsVisible := !s.partialsVisible }
  | .tick results =>
      let s1 := results.foldl processAnalysisResult s
      if s1.captureState = CaptureState.done then
        { s1 with captureState := CaptureState.armed }
      else s1

/-- `TunerApp::default` of `main.rs`, restricted to the modelled fields. -/
noncomputable def initState : AppState where
  stabilityBuffer := []
  measurements := fun _ => none
  smoothingBuffer := []
  lastAnalysis := none
  tuningMode := TuningMode.auto
  captureState := CaptureState.off
  spectrogramVisible := true
  centMeterVisible := true
  keySelectVisible := true
  partialsVisible := true
  handedBatches := []

/-- One application transition: some message is processed. -/
def AppStep (s s2 : AppState) : Prop := ∃ msg, s2 = applyMessage s msg

/-- The states reachable from the initial state through the defined
transitions. -/
def Reachable (s : AppState) : Prop :=
  Relation.ReflTransGen AppStep initState s

/-! ## Theorems -/

/-- C9: for every key index `i` in 0..87, looking up the index of the name
of note `i` returns `i`, and the note table's frequency at index 48 is
exactly 440.0. -/
theorem noteTable_roundtrip_a4 :
    (∀ i : Fin 88, getKeyIndexFromName (noteName i) = i) ∧
    noteFrequency 48 = 440 := by
  constructor
  · decide
  · have h0 : (((48 : ℕ) : ℝ) - 48) / 12 = 0 := by norm_num
    rw [noteFrequency, h0, Real.rpow_zero]
    norm_num

/-- The C2 counterexample's measurement: three partials, of which only two
satisfy `number > 0 && frequency > 0` (the third has partial number 0). -/
def mTwoValid : KeyMeasurement ℚ :=
  KeyMeasurement.mk 0 [Partial.mk 1 100, Partial.mk 2 200, Partial.mk 0 50] none

/-- C2 counterexample: `mTwoValid` has only two partials satisfying
`number > 0` and `frequency > 0`, yet `calculate_b_value` returns a result
(the length gate counts all partials before filtering). -/
theorem calculateBValue_two_valid_counterexample :
    (mTwoValid.partials.filter validPartial).length < 3 ∧
    (calculateBValue mTwoValid).1 = some 0 := by
  constructor
  · norm_num [mTwoValid, validPartial, List.filter_cons]
  · norm_num [calculateBValue, mTwoValid, linearRegression, regressionXs,
      regressionYs, validPartial, List.filter_cons, abs_of_pos]

/-- C2 as amended: `calculate_b_value` returns no result when the
measurement has fewer than three partials **in total** (valid or not); when
at least three valid partials exist and the regression returns an intercept
of absolute value above `1e-6`, it returns `slope / intercept` and stores
that value on the measurement. -/
theorem calculateBValue_spec (K : Type) [LinearOrderedField K]
    (m : KeyMeasurement K) :
    (m.partials.length < 3 → calculateBValue m = (none, m)) ∧
    (∀ slope intercept,
      3 ≤ (m.partials.filter validPartial).length →
      linearRegression (regressionXs m) (regressionYs m) = some (slope, intercept) →
      1 / 1000000 < |intercept| →
      (calculateBValue m).1 = some (slope / intercept) ∧
      (calculateBValue m).2.calculatedB = some (slope / intercept)) := by
  constructor
  · intro h
    simp [calculateBValue, h]
  · intro slope intercept hlen hreg habs
    have hlen3 : ¬ m.partials.length < 3 := by
      have := m.partials.length_filter_le validPartial
      omega
    have habs2 : (1000000 : K)⁻¹ < |intercept| := by rwa [one_div] at habs
    simp [calculateBValue, hlen3, hreg, habs2]

/-- A measurement with three valid partials, for the C2 witness. -/
def mThreeValid : KeyMeasurement ℚ :=
  KeyMeasurement.mk 0 [Partial.mk 1 100, Partial.mk 2 200, Partial.mk 3 300] none

/-- C2 witness: the amended claim applied to `mThreeValid`, whose
regression yields slope 0 and intercept 10000. -/
theorem calculateBValue_spec_witness :
    (calculateBValue mThreeValid).1 = some (0 / 10000) ∧
    (calculateBValue mThreeValid).2.calculatedB = some (0 / 10000) :=
  (calculateBValue_spec ℚ mThreeValid).2 0 10000
    (by norm_num [mThreeValid, validPartial, List.filter_cons])
    (by norm_num [mThreeValid, linearRegression, regressionXs, regressionYs,
      validPartial, List.filter_cons])
    (by norm_num)

/-- A frame with a stable note and frequency, on which the BestConfidence
strategy succeeds. -/
def stableFrame {K : Type} [LinearOrderedField K] : AnalysisResult K :=
  AnalysisResult.mk (some 440) (some 1) none (some "A4") [] []

/-- C4 counterexample: on the empty buffer the `Average` operation and the
`BestConfidence` no-data outcome return the **same** value (`None`); the
returned values are not distinct. -/
theorem average_return_value_counterexample :
    (process ([] : List (AnalysisResult ℚ)) ProcessingOperation.average).1 = none ∧
    (process ([] : List (AnalysisResult ℚ)) ProcessingOperation.bestConfidence).1 = none := by
  decide

/-- C4 as amended: for every buffer the `Average` operation returns `None`
together with an explicit "not supported" diagnostic — distinct from the
"no data" diagnostic, though the returned `Option` value coincides with the
no-data outcome — and it never falls back to another strategy (it returns
`None` even on a buffer where BestConfidence succeeds). -/
theorem average_not_supported (K : Type) [LinearOrderedField K] :
    ∀ buffer : List (AnalysisResult K),
      process buffer ProcessingOperation.average =
        (none, [CaptureLog.notSupported]) ∧
      CaptureLog.notSupported ≠ CaptureLog.noBestFrame ∧
      (process [(stableFrame : AnalysisResult K)]
        ProcessingOperation.bestConfidence).1 ≠ none := by
  intro buffer
  refine ⟨rfl, by simp, ?_⟩
  simp [process, processBestConfidence, maxByConfidence, stableFrame]

/-- C8: `detect_pitch_yin` on the all-zero one-sample buffer with the
non-negative threshold 0 panics (index out of bounds writing
`yin_buffer[0]`) instead of returning "no pitch"; `detect_pitch_pyin`
returns `None` there as the spec demands. -/
theorem detectPitchYin_short_zero_panics :
    detectPitchYin ([0] : List ℚ) 44100 0 = Except.error () ∧
    detectPitchPyin ([0] : List ℚ) 44100 0 = none := by
  constructor
  · norm_num [detectPitchYin, noiseGateFires]
  · norm_num [detectPitchPyin]

/-- C3 counterexample: at magnitudes `(1, e², e¹)` the interpolation
succeeds with offset `1/6`, while the spec's formula
`(ln y_l - ln y_r) / (2·(2·ln y_c - ln y_l - ln y_r))` yields `-1/6`. -/
theorem parabolic_offset_sign_counterexample :
    parabolicInterpolationOffset (Real.log 1) (Real.log (Real.exp 2))
      (Real.log (Real.exp 1)) = some (1 / 6) ∧
    (Real.log 1 - Real.log (Real.exp 1)) /
      (2 * (2 * Real.log (Real.exp 2) - Real.log 1 - Real.log (Real.exp 1))) =
      -(1 / 6) ∧
    ((1 : ℝ) / 6) ≠ -(1 / 6) := by
  refine ⟨?_, ?_, by norm_num⟩
  · simp only [parabolicInterpolationOffset, Real.log_one, Real.log_exp]
    rw [if_neg (by rw [abs_of_nonpos (by norm_num)]; norm_num)]
    norm_num
  · rw [Real.log_one, Real.log_exp, Real.log_exp]
    norm_num

/-- C3 as amended: whenever the three magnitudes are positive (all logs
finite) and the denominator is at least `1e-6` in absolute value, the
sub-bin offset equals
`(ln y_l - ln y_r) / (2·(ln y_l - 2·ln y_c + ln y_r))` — the standard
parabolic-vertex formula; the spec's stated denominator has the opposite
sign. -/
theorem parabolic_offset_formula (m1 m2 m3 : ℝ)
    (_hm1 : 0 < m1) (_hm2 : 0 < m2) (_hm3 : 0 < m3)
    (hd : 1 / 1000000 ≤ |2 * Real.log m2 - Real.log m1 - Real.log m3|) :
    parabolicInterpolationOffset (Real.log m1) (Real.log m2) (Real.log m3) =
      some ((Real.log m1 - Real.log m3) /
        (2 * (Real.log m1 - 2 * Real.log m2 + Real.log m3))) := by
  have habs : |Real.log m1 - 2 * Real.log m2 + Real.log m3| =
      |2 * Real.log m2 - Real.log m1 - Real.log m3| := by
    rw [show Real.log m1 - 2 * Real.log m2 + Real.log m3 =
      -(2 * Real.log m2 - Real.log m1 - Real.log m3) by ring, abs_neg]
  simp only [parabolicInterpolationOffset]
  rw [if_neg (by rw [habs]; exact not_lt.mpr hd)]

/-- Each raw YIN difference is a sum of squares, hence nonnegative. -/
lemma yinDiff_nonneg {K : Type} [LinearOrderedField K]
    (signal : List K) (frameSize tau : ℕ) : 0 ≤ yinDiff signal frameSize tau :=
  Finset.sum_nonneg fun _ _ => mul_self_nonneg _

/-- The running sum of raw differences is nonnegative. -/
lemma yinRunningSum_nonneg {K : Type} [LinearOrderedField K]
    (signal : List K) (frameSize tau : ℕ) : 0 ≤ yinRunningSum signal frameSize tau :=
  Finset.sum_nonneg fun t _ => yinDiff_nonneg signal frameSize (t + 1)

/-- Every entry of the normalized YIN buffer is nonnegative: each is either
1.0 or a nonnegative difference scaled by a nonnegative factor. -/
lemma yinBuffer_nonneg {K : Type} [LinearOrderedField K]
    (signal : List K) (frameSize tau : ℕ) : 0 ≤ yinBuffer signal frameSize tau := by
  unfold yinBuffer
  split
  · exact zero_le_one
  · split
    · next h =>
        have hpos : (0 : K) < yinRunningSum signal frameSize tau :=
          lt_trans (by norm_num) h
        exact mul_nonneg (yinDiff_nonneg _ _ _)
          (div_nonneg (Nat.cast_nonneg _) hpos.le)
    · exact zero_le_one

/-- The pYIN candidate fold preserves "the candidate's value is a
nonnegative buffer entry". -/
lemma pyinStep_nonneg {K : Type} [LinearOrderedField K] (buf : ℕ → K)
    (hbuf : ∀ t, 0 ≤ buf t) (st : Option (ℕ × K)) (tau : ℕ)
    (h : ∀ q ∈ st, 0 ≤ q.2) : ∀ q ∈ pyinStep buf st tau, 0 ≤ q.2 := by
  intro q hq
  cases st with
  | none =>
      simp only [pyinStep] at hq
      split at hq
      · rw [Option.mem_def, Option.some_inj] at hq
        rw [← hq]
        exact hbuf tau
      · exact h q hq
  | some best =>
      simp only [pyinStep] at hq
      split at hq
      · split at hq
        · rw [Option.mem_def, Option.some_inj] at hq
          rw [← hq]
          exact hbuf tau
        · exact h q hq
      · exact h q hq

/-- Folding `pyinStep` from an invariant-satisfying state keeps the
invariant. -/
lemma pyin_fold_nonneg {K : Type} [LinearOrderedField K] (buf : ℕ → K)
    (hbuf : ∀ t, 0 ≤ buf t) :
    ∀ (l : List ℕ) (st : Option (ℕ × K)), (∀ q ∈ st, 0 ≤ q.2) →
      ∀ q ∈ l.foldl (pyinStep buf) st, 0 ≤ q.2 := by
  intro l
  induction l with
  | nil => intro st h; simpa using h
  | cons tau l ih =>
      intro st h
      exact ih (pyinStep buf st tau) (pyinStep_nonneg buf hbuf st tau h)

/-- C10: whenever `detect_pitch_pyin` returns a pitch, the confidence lies
in `[0.9, 1.0]`: it is `1 - v` for the selected normalized-difference
value `v`, which is nonnegative and at most the clarity threshold `0.1`. -/
theorem pyin_confidence_range {K : Type} [LinearOrderedField K]
    (signal : List K) (sampleRate : ℕ) (amplitudeThreshold f c : K)
    (h : detectPitchPyin signal sampleRate amplitudeThreshold = some (f, c)) :
    9 / 10 ≤ c ∧ c ≤ 1 ∧ ∃ v, 0 ≤ v ∧ v ≤ 1 / 10 ∧ c = 1 - v := by
  simp only [detectPitchPyin] at h
  split at h
  · exact absurd h (by simp)
  split at h
  · exact absurd h (by simp)
  split at h
  · exact absurd h (by simp)
  next best heq =>
    split at h
    · exact absurd h (by simp)
    next hclar =>
      split at h
      · exact absurd h (by simp)
      split at h
      · next =>
          rw [Option.some_inj, Prod.mk.injEq] at h
          have hv0 : 0 ≤ best.2 := by
            refine pyin_fold_nonneg (yinBuffer signal signal.length)
              (yinBuffer_nonneg signal signal.length)
              (List.range' 2 (signal.length / 2 - 1 - 2)) none (by simp) best ?_
            rw [Option.mem_def]
            exact heq
          have hv1 : best.2 ≤ 1 / 10 := not_lt.mp hclar
          refine ⟨?_, ?_, best.2, hv0, hv1, h.2.symm⟩
          · rw [← h.2]; linarith
          · rw [← h.2]; linarith
      · exact absurd h (by simp)

/-- The `max_by` fold returns the start or an element of the list. -/
lemma foldl_maxByStep_mem {K : Type} [LinearOrderedField K] :
    ∀ (xs : List (AnalysisResult K)) (acc : AnalysisResult K),
      xs.foldl maxByStep acc = acc ∨ xs.foldl maxByStep acc ∈ xs := by
  intro xs
  induction xs with
  | nil => intro acc; left; rfl
  | cons x xs ih =>
      intro acc
      rw [List.foldl_cons]
      rcases ih (maxByStep acc x) with h | h
      · rw [h]
        unfold maxByStep
        split
        · left; rfl
        · right; exact List.mem_cons_self x xs
      · right; exact List.mem_cons_of_mem x h

/-- The `max_by` fold's result dominates the start and every element. -/
lemma foldl_maxByStep_conf_ge {K : Type} [LinearOrderedField K] :
    ∀ (xs : List (AnalysisResult K)) (acc : AnalysisResult K),
      confOrZero acc ≤ confOrZero (xs.foldl maxByStep acc) ∧
      ∀ g ∈ xs, confOrZero g ≤ confOrZero (xs.foldl maxByStep acc) := by
  intro xs
  induction xs with
  | nil => intro acc; exact ⟨le_refl _, by simp⟩
  | cons x xs ih =>
      intro acc
      have hacc : confOrZero acc ≤ confOrZero (maxByStep acc x) := by
        unfold maxByStep
        split
        · exact le_refl _
        · next hnlt => exact le_of_not_lt hnlt
      have hx : confOrZero x ≤ confOrZero (maxByStep acc x) := by
        unfold maxByStep
        split
        · next hlt => exact le_of_lt hlt
        · exact le_refl _
      obtain ⟨h1, h2⟩ := ih (maxByStep acc x)
      rw [List.foldl_cons]
      refine ⟨le_trans hacc h1, ?_⟩
      intro g hg
      rcases List.mem_cons.mp hg with rfl | hg
      · exact le_trans hx h1
      · exact h2 g hg

/-- C1 as amended: on a nonempty buffer the best-confidence selection picks
a frame of the buffer whose confidence (missing read as 0.0) is maximal;
ties between equal confidences are broken by the **last**-encountered frame
in iteration order (appending a frame whose confidence ties the maximum
makes it the selection); on pairwise-distinct confidences it picks the
strict maximum. -/
theorem bestConfidence_picks_max (K : Type) [LinearOrderedField K]
    (buffer : List (AnalysisResult K)) (hne : buffer ≠ []) :
    ∃ f, maxByConfidence buffer = some f ∧ f ∈ buffer ∧
      (∀ g ∈ buffer, confOrZero g ≤ confOrZero f) ∧
      (∀ y, (∀ g ∈ buffer, confOrZero g ≤ confOrZero y) →
        maxByConfidence (buffer ++ [y]) = some y) ∧
      (buffer.Pairwise (fun a b => confOrZero a ≠ confOrZero b) →
        ∀ g ∈ buffer, g ≠ f → confOrZero g < confOrZero f) := by
  cases buffer with
  | nil => exact absurd rfl hne
  | cons x xs =>
      have hmem : xs.foldl maxByStep x ∈ x :: xs := by
        rcases foldl_maxByStep_mem xs x with h | h
        · rw [h]; exact List.mem_cons_self x xs
        · exact List.mem_cons_of_mem x h
      have hub : ∀ g ∈ x :: xs, confOrZero g ≤ confOrZero (xs.foldl maxByStep x) := by
        obtain ⟨h1, h2⟩ := foldl_maxByStep_conf_ge xs x
        intro g hg
        rcases List.mem_cons.mp hg with rfl | hg
        · exact h1
        · exact h2 g hg
      refine ⟨xs.foldl maxByStep x, rfl, hmem, hub, ?_, ?_⟩
      · intro y hy
        show some ((xs ++ [y]).foldl maxByStep x) = some y
        rw [List.foldl_append, List.foldl_cons, List.foldl_nil, maxByStep,
          if_neg (not_lt.mpr (hy _ hmem))]
      · intro hpw g hg hgf
        refine lt_of_le_of_ne (hub g hg) ?_
        exact hpw.forall (fun a b hab => hab.symm) hg hmem hgf

/-- Two frames with equal confidence `1` and different frequencies. -/
def frameTieFirst : AnalysisResult ℚ :=
  AnalysisResult.mk (some 1) (some 1) none none [] []

/-- The second of the tied frames. -/
def frameTieSecond : AnalysisResult ℚ :=
  AnalysisResult.mk (some 2) (some 1) none none [] []

/-- C1 counterexample: on two frames with equal confidence the selection
returns the second frame, not the first-encountered one. -/
theorem bestConfidence_tie_counterexample :
    confOrZero frameTieFirst = confOrZero frameTieSecond ∧
    maxByConfidence [frameTieFirst, frameTieSecond] = some frameTieSecond ∧
    frameTieSecond ≠ frameTieFirst := by
  refine ⟨rfl, ?_, by simp [frameTieFirst, frameTieSecond]⟩
  show some (maxByStep frameTieFirst frameTieSecond) = some frameTieSecond
  rw [maxByStep,
    if_neg (by norm_num [confOrZero, frameTieFirst, frameTieSecond])]

/-- C1 witness: the amended claim applied to a singleton buffer. -/
theorem bestConfidence_picks_max_witness :
    ∃ f, maxByConfidence [frameTieFirst] = some f ∧ f ∈ [frameTieFirst] ∧
      (∀ g ∈ [frameTieFirst], confOrZero g ≤ confOrZero f) ∧
      (∀ y, (∀ g ∈ [frameTieFirst], confOrZero g ≤ confOrZero y) →
        maxByConfidence ([frameTieFirst] ++ [y]) = some y) ∧
      (([frameTieFirst]).Pairwise (fun a b => confOrZero a ≠ confOrZero b) →
        ∀ g ∈ [frameTieFirst], g ≠ f → confOrZero g < confOrZero f) :=
  bestConfidence_picks_max ℚ [frameTieFirst] (by simp)

/-- `refine_from_spectrum` never fails: every return path yields `Some`
(the final path is `interpolate_peak_frequency(..).or(Some(rough_freq))`). -/
lemma refineFromSpectrum_isSome (mags : List ℝ) (rough : ℝ) (sr : ℕ) :
    ∃ f, refineFromSpectrum mags rough sr = some f := by
  simp only [refineFromSpectrum]
  repeat' split
  all_goals exact ⟨_, rfl⟩

/-- The joint-presence invariant of C6 on an `AnalysisResult`. -/
def jointlyPresent (r : AnalysisResult ℝ) : Prop :=
  r.centsDeviation.isSome = r.noteName.isSome ∧
  r.noteName.isSome = r.detectedFrequency.isSome ∧
  r.confidence.isSome = r.detectedFrequency.isSome

/-- A property of the success value of an `Except` (vacuous on a panic). -/
def exceptHolds {ε α : Type} (P : α → Prop) : Except ε α → Prop
  | .error _ => True
  | .ok a => P a

/-- C6: for every input frame and sample rate, the `AnalysisResult`
produced by one analysis cycle has `cents_deviation`, `note_name`,
`detected_frequency` and `confidence` jointly present or jointly absent. -/
theorem analysis_fields_jointly_present (audioFrame : List ℝ) (sampleRate : ℕ) :
    exceptHolds jointlyPresent (performAnalysis audioFrame sampleRate) := by
  unfold performAnalysis
  split
  · exact trivial
  next complexSpectrum hfft =>
    split
    · next fqc heq =>
        obtain ⟨rf, hrf⟩ := refineFromSpectrum_isSome
          (spectrumToMagnitudes complexSpectrum) fqc.1 sampleRate
        simp [exceptHolds, jointlyPresent, hrf]
    · simp [exceptHolds, jointlyPresent]

/-- The C10 witness input: a period-3 pulse train of ten samples. -/
def sig10 : List ℚ := [1, 0, 0, 1, 0, 0, 1, 0, 0, 1]

lemma sig10_length : sig10.length = 10 := by simp [sig10]

lemma sig10_yinDiff1 : yinDiff sig10 10 1 = 3 := by
  norm_num [yinDiff, Finset.sum_range_succ, sig10]

lemma sig10_yinDiff2 : yinDiff sig10 10 2 = 4 := by
  norm_num [yinDiff, Finset.sum_range_succ, sig10]

lemma sig10_yinDiff3 : yinDiff sig10 10 3 = 0 := by
  norm_num [yinDiff, Finset.sum_range_succ, sig10]

lemma sig10_yinDiff4 : yinDiff sig10 10 4 = 3 := by
  norm_num [yinDiff, Finset.sum_range_succ, sig10]

lemma sig10_buffer1 : yinBuffer sig10 10 1 = 1 := by
  norm_num [yinBuffer, yinRunningSum, Finset.sum_range_succ, sig10_yinDiff1]

lemma sig10_buffer2 : yinBuffer sig10 10 2 = 8 / 7 := by
  norm_num [yinBuffer, yinRunningSum, Finset.sum_range_succ, sig10_yinDiff1,
    sig10_yinDiff2]

lemma sig10_buffer3 : yinBuffer sig10 10 3 = 0 := by
  norm_num [yinBuffer, yinRunningSum, Finset.sum_range_succ, sig10_yinDiff1,
    sig10_yinDiff2, sig10_yinDiff3]

lemma sig10_buffer4 : yinBuffer sig10 10 4 = 6 / 5 := by
  norm_num [yinBuffer, yinRunningSum, Finset.sum_range_succ, sig10_yinDiff1,
    sig10_yinDiff2, sig10_yinDiff3, sig10_yinDiff4]

/-- `detect_pitch_pyin` on the pulse train finds period 3 (minus the
interpolation offset `1/82`) with confidence 1. -/
lemma sig10_pyin : detectPitchPyin sig10 1000 0 = some (16400 / 49, 1) := by
  norm_num [detectPitchPyin, noiseGateFires, sig10_length, pyinStep,
    parabolicInterpolationOffset, List.range', sig10_buffer1, sig10_buffer2,
    sig10_buffer3, sig10_buffer4, abs_of_pos]

/-- C10 witness: the confidence bound applied to the pulse train. -/
theorem pyin_confidence_range_witness :
    (9 : ℚ) / 10 ≤ 1 ∧ (1 : ℚ) ≤ 1 ∧ ∃ v, 0 ≤ v ∧ v ≤ 1 / 10 ∧ (1 : ℚ) = 1 - v :=
  pyin_confidence_range sig10 1000 0 (16400 / 49) 1 sig10_pyin

/-- The smoothing and last-analysis sections of `process_analysis_result`
leave the capture-related fields of the capture section's result
untouched. -/
lemma processAnalysisResult_core (s : AppState) (r : AnalysisResult ℝ) :
    (processAnalysisResult s r).captureState = (capturePhase s r).captureState ∧
    (processAnalysisResult s r).stabilityBuffer = (capturePhase s r).stabilityBuffer ∧
    (processAnalysisResult s r).handedBatches = (capturePhase s r).handedBatches := by
  simp only [processAnalysisResult]
  split <;> simp

/-- A non-`Capturing` state passes the capture section unchanged. -/
lemma capturePhase_not_capturing (s : AppState) (r : AnalysisResult ℝ)
    (h : s.captureState ≠ CaptureState.capturing) : capturePhase s r = s := by
  simp [capturePhase, h]

/-- While the FIFO stays strictly below capacity the capture section only
appends the frame. -/
lemma capturePhase_below_capacity (s : AppState) (r : AnalysisResult ℝ)
    (hcs : s.captureState = CaptureState.capturing)
    (hlen : s.stabilityBuffer.length + 1 < STABILITY_TARGET) :
    capturePhase s r = { s with stabilityBuffer := s.stabilityBuffer ++ [r] } := by
  have hpop : ¬ STABILITY_TARGET < s.stabilityBuffer.length + 1 := by omega
  have hfull : ¬ s.stabilityBuffer.length + 1 = STABILITY_TARGET := by omega
  simp [capturePhase, hcs, hpop, hfull]

/-- Reaching capacity with a stable buffer transitions to `Done`, empties
the FIFO, and hands the full buffer to the measurement selector. -/
lemma capturePhase_trigger (s : AppState) (r : AnalysisResult ℝ)
    (hcs : s.captureState = CaptureState.capturing)
    (hlen : (s.stabilityBuffer ++ [r]).length = STABILITY_TARGET)
    (hstab : checkStability (s.stabilityBuffer ++ [r])) :
    (capturePhase s r).captureState = CaptureState.done ∧
    (capturePhase s r).stabilityBuffer = [] ∧
    (capturePhase s r).handedBatches =
      s.handedBatches ++ [s.stabilityBuffer ++ [r]] := by
  have hlen2 : s.stabilityBuffer.length + 1 = STABILITY_TARGET := by
    simpa using hlen
  have hpop : ¬ STABILITY_TARGET < s.stabilityBuffer.length + 1 := by omega
  refine ⟨?_, ?_, ?_⟩ <;> simp [capturePhase, hcs, hpop, hlen2, hstab]

/-- Reaching capacity with an unstable buffer keeps capturing and hands
nothing over. -/
lemma capturePhase_no_trigger (s : AppState) (r : AnalysisResult ℝ)
    (hcs : s.captureState = CaptureState.capturing)
    (hlen : (s.stabilityBuffer ++ [r]).length = STABILITY_TARGET)
    (hstab : ¬ checkStability (s.stabilityBuffer ++ [r])) :
    (capturePhase s r).captureState = CaptureState.capturing ∧
    (capturePhase s r).handedBatches = s.handedBatches := by
  have hlen2 : s.stabilityBuffer.length + 1 = STABILITY_TARGET := by
    simpa using hlen
  have hpop : ¬ STABILITY_TARGET < s.stabilityBuffer.length + 1 := by omega
  constructor <;> simp [capturePhase, hcs, hpop, hlen2, hstab]

/-- Feeding frames while the FIFO stays strictly below capacity keeps the
state `Capturing`, appends the frames, and hands nothing over. -/
lemma feed_below_capacity :
    ∀ (fs : List (AnalysisResult ℝ)) (s : AppState),
      s.captureState = CaptureState.capturing →
      s.stabilityBuffer.length + fs.length < STABILITY_TARGET →
      (fs.foldl processAnalysisResult s).captureState = CaptureState.capturing ∧
      (fs.foldl processAnalysisResult s).stabilityBuffer = s.stabilityBuffer ++ fs ∧
      (fs.foldl processAnalysisResult s).handedBatches = s.handedBatches := by
  intro fs
  induction fs with
  | nil => intro s hcs _; exact ⟨hcs, by simp, rfl⟩
  | cons f fs ih =>
      intro s hcs hlen
      obtain ⟨c1, c2, c3⟩ := processAnalysisResult_core s f
      have hsmall : s.stabilityBuffer.length + 1 < STABILITY_TARGET := by
        simp only [List.length_cons] at hlen
        omega
      rw [capturePhase_below_capacity s f hcs hsmall] at c1 c2 c3
      simp only [] at c1 c2 c3
      have hcap : (processAnalysisResult s f).captureState = CaptureState.capturing := by
        rw [c1]; exact hcs
      have hbuf : (processAnalysisResult s f).stabilityBuffer.length + fs.length <
          STABILITY_TARGET := by
        rw [c2]
        simp only [List.length_append, List.length_cons, List.length_nil]
        simp only [List.length_cons] at hlen
        omega
      rw [List.foldl_cons]
      obtain ⟨g1, g2, g3⟩ := ih (processAnalysisResult s f) hcap hbuf
      refine ⟨g1, ?_, ?_⟩
      · rw [g2, c2]
        simp
      · rw [g3, c3]

/-- A uniformly-noted, uniformly-confident nonempty buffer is stable. -/
lemma checkStability_of_uniform (n : String) (buffer : List (AnalysisResult ℝ))
    (hne : buffer ≠ [])
    (hall : ∀ f ∈ buffer, f.noteName = some n ∧
      ∃ c, f.confidence = some c ∧ STABILITY_CONFIDENCE_THRESHOLD < c) :
    checkStability buffer := by
  cases buffer with
  | nil => exact absurd rfl hne
  | cons first rest =>
      have hfirst : first.noteName = some n := (hall first (by simp)).1
      simp only [checkStability]
      rw [hfirst]
      intro f hf
      exact ⟨(hall f hf).2, (hall f hf).1⟩

/-- A buffer in which one frame names a different note than all the others
is not stable. -/
lemma checkStability_not_of_dissimilar (n m : String)
    (pre post : List (AnalysisResult ℝ)) (bad : AnalysisResult ℝ)
    (hpre : ∀ f ∈ pre, f.noteName = some n)
    (hpost : ∀ f ∈ post, f.noteName = some n)
    (hbad : bad.noteName = some m) (hmn : m ≠ n)
    (hnonempty : pre ++ post ≠ []) :
    ¬ checkStability (pre ++ bad :: post) := by
  intro hstab
  cases pre with
  | nil =>
      cases post with
      | nil => exact hnonempty rfl
      | cons p ps =>
          simp only [checkStability, List.nil_append] at hstab
          rw [hbad] at hstab
          have hp := (hstab p (by simp)).2
          rw [hpost p (by simp)] at hp
          exact hmn (Option.some_inj.mp hp).symm
  | cons p0 pre2 =>
      simp only [checkStability, List.cons_append] at hstab
      rw [hpre p0 (by simp)] at hstab
      have hb := (hstab bad (by simp)).2
      rw [hbad] at hb
      exact hmn (Option.some_inj.mp hb)

/-- C5: from `Capturing` with an empty buffer, feeding exactly
`STABILITY_TARGET` frames with one `Some` note name and confidences
strictly above the threshold reaches `Done`, handing exactly the
`STABILITY_TARGET`-frame window to the measurement selector, with every
proper prefix still `Capturing` (the transition happens exactly once, at
the final frame); a single frame with a different note name anywhere in
the window prevents the transition and the state remains `Capturing`. -/
theorem capture_stability_window (s0 : AppState) (n : String)
    (frames : List (AnalysisResult ℝ))
    (hs0c : s0.captureState = CaptureState.capturing)
    (hs0b : s0.stabilityBuffer = [])
    (hlen : frames.length = STABILITY_TARGET) :
    ((∀ f ∈ frames, f.noteName = some n ∧
        ∃ c, f.confidence = some c ∧ STABILITY_CONFIDENCE_THRESHOLD < c) →
      (frames.foldl processAnalysisResult s0).captureState = CaptureState.done ∧
      (frames.foldl processAnalysisResult s0).handedBatches =
        s0.handedBatches ++ [frames] ∧
      (∀ k, k < STABILITY_TARGET →
        ((frames.take k).foldl processAnalysisResult s0).captureState =
          CaptureState.capturing)) ∧
    (∀ (pre post : List (AnalysisResult ℝ)) (bad : AnalysisResult ℝ) (m : String),
      frames = pre ++ bad :: post →
      (∀ f ∈ pre, f.noteName = some n) →
      (∀ f ∈ post, f.noteName = some n) →
      bad.noteName = some m → m ≠ n →
      (frames.foldl processAnalysisResult s0).captureState =
        CaptureState.capturing ∧
      (frames.foldl processAnalysisResult s0).handedBatches =
        s0.handedBatches) := by
  have hT : STABILITY_TARGET = 20 := rfl
  have hne : frames ≠ [] := by
    intro h
    rw [h, hT] at hlen
    simp at hlen
  obtain ⟨init, lastF, hdecomp⟩ : ∃ init lastF, frames = init ++ [lastF] :=
    ⟨frames.dropLast, frames.getLast hne, (List.dropLast_append_getLast hne).symm⟩
  have hinitlen : init.length + 1 = STABILITY_TARGET := by
    rw [hdecomp] at hlen
    simpa using hlen
  obtain ⟨p1, p2, p3⟩ := feed_below_capacity init s0 hs0c
    (by rw [hs0b, hT]; simp only [List.length_nil]; omega)
  set s19 := init.foldl processAnalysisResult s0 with hs19
  have hs19buf : s19.stabilityBuffer = init := by rw [p2, hs0b]; simp
  have hsplit : frames.foldl processAnalysisResult s0 =
      processAnalysisResult s19 lastF := by
    rw [hdecomp, List.foldl_append, List.foldl_cons, List.foldl_nil]
  have hlen20 : (s19.stabilityBuffer ++ [lastF]).length = STABILITY_TARGET := by
    rw [hs19buf]
    simpa using hinitlen
  constructor
  · intro hall
    have hstab : checkStability (s19.stabilityBuffer ++ [lastF]) := by
      rw [hs19buf, ← hdecomp]
      exact checkStability_of_uniform n frames hne hall
    obtain ⟨t1, t2, t3⟩ := capturePhase_trigger s19 lastF p1 hlen20 hstab
    obtain ⟨c1, c2, c3⟩ := processAnalysisResult_core s19 lastF
    refine ⟨by rw [hsplit, c1, t1], by rw [hsplit, c3, t3, p3, hs19buf, ← hdecomp], ?_⟩
    intro k hk
    have hkle : k ≤ init.length := by omega
    have htake : frames.take k = init.take k := by
      rw [hdecomp]
      exact List.take_append_of_le_length hkle
    rw [htake]
    obtain ⟨q1, _, _⟩ := feed_below_capacity (init.take k) s0 hs0c
      (by rw [hs0b]; simp only [List.length_nil, List.length_take]; omega)
    exact q1
  · intro pre post bad m hdec2 hpre hpost hbad hmn
    have hnonempty : pre ++ post ≠ [] := by
      intro hcontra
      rcases List.append_eq_nil.mp hcontra with ⟨rfl, rfl⟩
      rw [hdec2, hT] at hlen
      simp at hlen
    have hnostab : ¬ checkStability (s19.stabilityBuffer ++ [lastF]) := by
      rw [hs19buf, ← hdecomp, hdec2]
      exact checkStability_not_of_dissimilar n m pre post bad hpre hpost hbad
        hmn hnonempty
    obtain ⟨t1, t2⟩ := capturePhase_no_trigger s19 lastF p1 hlen20 hnostab
    obtain ⟨c1, _, c3⟩ := processAnalysisResult_core s19 lastF
    exact ⟨by rw [hsplit, c1, t1], by rw [hsplit, c3, t2, p3]⟩

/-- The C5 witness start state: measurement mode on and capturing. -/
noncomputable def capturingState : AppState :=
  { initState with captureState := CaptureState.capturing }

/-- The C5 witness frame: note A4 with confidence 0.95. -/
noncomputable def goodFrame : AnalysisResult ℝ :=
  AnalysisResult.mk (some 440) (some (95 / 100)) none (some "A4") [] []

/-- C5 witness: twenty stable A4 frames drive the capturing start state to
`Done`, hand over exactly that window, and stay `Capturing` on every
proper prefix. -/
theorem capture_stability_window_witness :
    ((List.replicate 20 goodFrame).foldl processAnalysisResult
      capturingState).captureState = CaptureState.done ∧
    ((List.replicate 20 goodFrame).foldl processAnalysisResult
      capturingState).handedBatches =
      capturingState.handedBatches ++ [List.replicate 20 goodFrame] ∧
    (∀ k, k < STABILITY_TARGET →
      (((List.replicate 20 goodFrame).take k).foldl processAnalysisResult
        capturingState).captureState = CaptureState.capturing) :=
  (capture_stability_window capturingState "A4" (List.replicate 20 goodFrame)
    rfl rfl rfl).1
    (fun f hf => by
      rw [List.eq_of_mem_replicate hf]
      exact ⟨rfl, 95 / 100, rfl, by norm_num [STABILITY_CONFIDENCE_THRESHOLD,
        goodFrame]⟩)

/-- The invariant backing C7: whenever the state is `Off` or `Done`, the
stability buffer is empty (for `Done` because entering it drained the
buffer). -/
def BufferInv (s : AppState) : Prop :=
  (s.captureState = CaptureState.off ∨ s.captureState = CaptureState.done) →
    s.stabilityBuffer = []

/-- The capture section either leaves the state alone, enters `Done` with
an empty buffer, or stays `Capturing`. -/
lemma capturePhase_cases (s : AppState) (r : AnalysisResult ℝ) :
    capturePhase s r = s ∨
    ((capturePhase s r).captureState = CaptureState.done ∧
      (capturePhase s r).stabilityBuffer = []) ∨
    (capturePhase s r).captureState = CaptureState.capturing := by
  by_cases hcs : s.captureState = CaptureState.capturing
  · simp only [capturePhase, hcs, eq_self_iff_true, if_true]
    set buf := if STABILITY_TARGET < (s.stabilityBuffer ++ [r]).length
      then List.drop 1 (s.stabilityBuffer ++ [r])
      else s.stabilityBuffer ++ [r] with hbuf
    by_cases h1 : buf.length = STABILITY_TARGET
    · rw [if_pos h1]
      by_cases h2 : checkStability buf
      · rw [if_pos h2]
        right; left; exact ⟨rfl, rfl⟩
      · rw [if_neg h2]
        right; right; simp [hcs]
    · rw [if_neg h1]
      right; right; simp [hcs]
  · left
    exact capturePhase_not_capturing s r hcs

/-- `process_analysis_result` preserves the buffer invariant. -/
lemma processAnalysisResult_bufferInv (s : AppState) (r : AnalysisResult ℝ)
    (h : BufferInv s) : BufferInv (processAnalysisResult s r) := by
  obtain ⟨c1, c2, _⟩ := processAnalysisResult_core s r
  intro hod
  rw [c1] at hod
  rw [c2]
  rcases capturePhase_cases s r with hc | ⟨_, hcb⟩ | hcs
  · rw [hc] at hod ⊢
    exact h hod
  · exact hcb
  · rw [hcs] at hod
    rcases hod with h2 | h2 <;> simp at h2

/-- Folding analysis results preserves the buffer invariant. -/
lemma foldl_bufferInv :
    ∀ (results : List (AnalysisResult ℝ)) (s : AppState), BufferInv s →
      BufferInv (results.foldl processAnalysisResult s) := by
  intro results
  induction results with
  | nil => intro s h; exact h
  | cons r rs ih =>
      intro s h
      exact ih _ (processAnalysisResult_bufferInv s r h)

/-- A state that agrees with `s` on the capture state and the stability
buffer inherits `s`'s buffer invariant. -/
lemma BufferInv_of_fields (s t : AppState) (h : BufferInv s)
    (hc : t.captureState = s.captureState)
    (hb : t.stabilityBuffer = s.stabilityBuffer) : BufferInv t := by
  intro hod
  rw [hb]
  exact h (by rwa [← hc])

/-- Every message of `TunerApp::update` preserves the buffer invariant. -/
lemma applyMessage_bufferInv (s : AppState) (msg : AppMessage)
    (h : BufferInv s) : BufferInv (applyMessage s msg) := by
  cases msg with
  | keySelected k =>
      have hfields :
          (applyMessage s (AppMessage.keySelected k)).captureState =
            s.captureState ∧
          (applyMessage s (AppMessage.keySelected k)).stabilityBuffer =
            s.stabilityBuffer := by
        simp only [applyMessage]
        cases s.tuningMode with
        | auto => exact ⟨rfl, rfl⟩
        | manual ck nm tf =>
            by_cases hk : ck = k
            · simp [hk]
            · simp [hk]
      exact BufferInv_of_fields s _ h hfields.1 hfields.2
  | switchToAutoMode => exact h
  | toggleMeasurementMode =>
      simp only [applyMessage]
      cases hcs : s.captureState with
      | off => intro hod; rcases hod with h2 | h2 <;> simp at h2
      | armed => intro _; rfl
      | capturing => intro _; rfl
      | done => intro _; exact h (Or.inr hcs)
  | captureButtonClicked =>
      simp only [applyMessage]
      cases hcs : s.captureState with
      | off => exact h
      | armed => intro hod; rcases hod with h2 | h2 <;> simp at h2
      | capturing => intro hod; rcases hod with h2 | h2 <;> simp at h2
      | done => intro _; exact h (Or.inr hcs)
  | saveProfile => exact h
  | loadProfile loaded =>
      cases loaded with
      | none => exact h
      | some p => exact h
  | toggleSpectrogram => exact h
  | toggleCentMeter => exact h
  | toggleKeySelect => exact h
  | togglePartialsPane => exact h
  | tick results =>
      simp only [applyMessage]
      have hf := foldl_bufferInv results s h
      by_cases hd : (results.foldl processAnalysisResult s).captureState =
          CaptureState.done
      · rw [if_pos hd]
        intro hod
        rcases hod with h2 | h2 <;> simp at h2
      · rw [if_neg hd]
        exact hf

/-- C7: in every application state reachable through the defined
transitions, `Off` implies an empty stability buffer; disabling
measurement mode from any non-`Off` state (`Armed`, `Capturing` or `Done`)
yields `Off` with the buffer cleared — for `Done` because the buffer was
drained on entering `Done`, since that toggle arm performs no explicit
clear. -/
theorem off_state_buffer_empty (s : AppState) (hreach : Reachable s) :
    (s.captureState = CaptureState.off → s.stabilityBuffer = []) ∧
    (s.captureState ≠ CaptureState.off →
      (applyMessage s AppMessage.toggleMeasurementMode).captureState =
        CaptureState.off ∧
      (applyMessage s AppMessage.toggleMeasurementMode).stabilityBuffer = []) := by
  have hinv : BufferInv s := by
    induction hreach with
    | refl => intro _; rfl
    | tail hsteps hstep ih =>
        obtain ⟨msg, rfl⟩ := hstep
        exact applyMessage_bufferInv _ msg ih
  refine ⟨fun hoff => hinv (Or.inl hoff), ?_⟩
  intro hnoff
  cases hcs : s.captureState with
  | off => exact absurd hcs hnoff
  | armed => simp [applyMessage, hcs]
  | capturing => simp [applyMessage, hcs]
  | done =>
      have hb := hinv (Or.inr hcs)
      simp [applyMessage, hcs, hb]

/-- The armed state reached by one toggle from the initial state. -/
noncomputable def armedState : AppState :=
  applyMessage initState AppMessage.toggleMeasurementMode

/-- C7 witness: the reachable armed state satisfies both parts. -/
theorem off_state_buffer_empty_witness :
    (armedState.captureState = CaptureState.off →
      armedState.stabilityBuffer = []) ∧
    (armedState.captureState ≠ CaptureState.off →
      (applyMessage armedState AppMessage.toggleMeasurementMode).captureState =
        CaptureState.off ∧
      (applyMessage armedState
        AppMessage.toggleMeasurementMode).stabilityBuffer = []) :=
  off_state_buffer_empty armedState
    (Relation.ReflTransGen.single ⟨AppMessage.toggleMeasurementMode, rfl⟩)

/-- C3 witness: the amended formula applied at magnitudes `(1, e², e¹)`. -/
theorem parabolic_offset_formula_witness :
    parabolicInterpolationOffset (Real.log 1) (Real.log (Real.exp 2))
      (Real.log (Real.exp 1)) =
      some ((Real.log 1 - Real.log (Real.exp 1)) /
        (2 * (Real.log 1 - 2 * Real.log (Real.exp 2) + Real.log (Real.exp 1)))) :=
  parabolic_offset_formula 1 (Real.exp 2) (Real.exp 1) one_pos
    (Real.exp_pos 2) (Real.exp_pos 1)
    (by rw [Real.log_one, Real.log_exp, Real.log_exp]; norm_num)

end Tuner
